import Mathlib

/-!
Verification of the traad Workspace and ProjectServer core
(src/traad/rope/workspace.py and src/traad/server.py) against its
natural-language specification.

The development shallowly embeds the Python code: Python path strings become
PyPath values (an absolute flag plus components), the rope resource tree of a
project becomes an FSTree, the cross-project dict becomes an association list
with Python dict semantics, and the external rope analysis engine (out of
scope per the specification, section 1) is an opaque function parameter.
Fallible operations return Except values; a raised Python exception is the
error branch.
-/

namespace Traad

/-! ## Path model (os.path on component lists) -/

/-- Model of a Python path string as handled by os.path: an absolute flag
(whether the string starts with the separator) plus the list of components. -/
structure PyPath where
  abs : Bool
  comps : List String
deriving DecidableEq

/-- Length of the common prefix of two component lists, as used by
os.path.relpath to locate the divergence point of path and start. -/
def commonPrefixLen : List String → List String → Nat
  | a :: as, b :: bs => if a = b then commonPrefixLen as bs + 1 else 0
  | _, _ => 0

/-- Model of os.path.relpath(path, start) on component lists: drop the common
prefix of path and start, then prepend one parent reference per remaining
start component.  The result of os.path.relpath is always a relative path. -/
def relpath (path start : PyPath) : PyPath :=
  ⟨false,
    List.replicate (start.comps.length - commonPrefixLen path.comps start.comps) ".." ++
      path.comps.drop (commonPrefixLen path.comps start.comps)⟩

/-- Workspace.to_relative_path (workspace.py, lines 133-153): a relative path
is returned unchanged; an absolute path is first resolved with
os.path.realpath and then made relative to the real path of the project root
(project.root.real_path).  The realpath function of the file system and the
real project root are parameters of the model. -/
def toRelativePath (realpath : PyPath → PyPath) (projectRootReal : PyPath)
    (path : PyPath) : PyPath :=
  if path.abs then relpath (realpath path) projectRootReal else path

/-- Absolute-path handling inside ProjectServer.get_children (server.py,
lines 61-65): an absolute path is made relative to the real path of the
project root, but the given path itself is not passed through realpath. -/
def serverGetChildrenPath (projectRootReal : PyPath) (path : PyPath) : PyPath :=
  if path.abs then relpath path projectRootReal else path

/-- Example realpath function of a file system in which the top-level entry
link is a symbolic link to the top-level entry real. -/
def linkRealpath : PyPath → PyPath :=
  fun p => if p.comps.head? = some "link" then ⟨p.abs, "real" :: p.comps.tail⟩ else p

/-! ## Project registry model (Workspace construction, cross projects, close) -/

/-- Model of a rope Project handle: the directory it was opened on and the
number of times close() has been called on it. -/
structure Project where
  dir : String
  closeCount : Nat
deriving DecidableEq

/-- Model of rope.base.project.Project(directory): a fresh, open handle. -/
def mkProject (dir : String) : Project := ⟨dir, 0⟩

/-- Failure conditions of the registry operations.  keyError models the
KeyError that Python raises when del removes a missing dict key.  notFound is
modelled from the spec: the structured NotFound condition of the error
taxonomy (spec, section 7); nothing under src constructs such a condition. -/
inductive WsError where
  | keyError (key : String)
  | notFound (what : String)
deriving DecidableEq

/-- Model of the Workspace registry state: the root project handle and the
_cross_projects dict, an insertion-ordered map from directory to handle. -/
structure Workspace where
  rootProject : Project
  crossProjects : List (String × Project)
deriving DecidableEq

/-- Python dict assignment d[k] = v: replace in place if the key is present,
otherwise append. -/
def dictSet (k : String) (v : Project) :
    List (String × Project) → List (String × Project)
  | [] => [(k, v)]
  | (k', v') :: rest => if k' = k then (k, v) :: rest else (k', v') :: dictSet k v rest

/-- Keys of the modelled dict. -/
def dictKeys (m : List (String × Project)) : List String := m.map Prod.fst

/-- Python dict deletion del d[k] on a present key. -/
def dictDel (k : String) : List (String × Project) → List (String × Project)
  | [] => []
  | (k', v') :: rest => if k' = k then rest else (k', v') :: dictDel k rest

/-- Workspace.add_cross_project (workspace.py, lines 111-113): registers a
fresh Project under the given directory, unconditionally. -/
def Workspace.addCrossProject (ws : Workspace) (directory : String) : Workspace :=
  { ws with crossProjects := dictSet directory (mkProject directory) ws.crossProjects }

/-- Workspace.remove_cross_project (workspace.py, lines 115-117): del on the
dict; on a missing key Python raises KeyError. -/
def Workspace.removeCrossProject (ws : Workspace) (directory : String) :
    Except WsError Workspace :=
  if directory ∈ dictKeys ws.crossProjects then
    .ok { ws with crossProjects := dictDel directory ws.crossProjects }
  else
    .error (.keyError directory)

/-- Workspace.__init__ (workspace.py, lines 94-106): open the root project,
start with an empty cross-project dict, form set(cross_project_dirs), discard
the root directory from it, and add_cross_project each remaining directory.
The Python set is modelled as first-occurrence deduplication; its iteration
order is unspecified in Python, and only the resulting key set matters here. -/
def Workspace.init (rootProjectDir : String) (crossProjectDirs : List String) :
    Workspace :=
  ((crossProjectDirs.eraseDups).filter (fun d => d ≠ rootProjectDir)).foldl
    (fun ws d => ws.addCrossProject d)
    { rootProject := mkProject rootProjectDir, crossProjects := [] }

/-- Workspace.close (workspace.py, lines 108-109): the body is exactly
self.root_project.close(); only the root project handle is closed. -/
def Workspace.close (ws : Workspace) : Workspace :=
  { ws with rootProject :=
      { ws.rootProject with closeCount := ws.rootProject.closeCount + 1 } }

/-! ## Refactoring engine boundary (Workspace.rename, get_changes; server rename) -/

/-- Ordered change set computed by the engine; the edits are kept as opaque
descriptions, which is all the claims here need. -/
structure ChangeSet where
  edits : List String
deriving DecidableEq

/-- Engine-side outcome of a refactoring request.  engineException models a
rope-internal exception escaping the engine (its Python type name and its
message).  refactoringFailed is modelled from the spec: the single structured
RefactoringFailed condition of the gateway contract (spec, sections 4.3 and
7); nothing under src constructs such a condition. -/
inductive EngErr where
  | engineException (excType msg : String)
  | refactoringFailed (msg : String)
deriving DecidableEq

/-- The rename engine, rope.refactor.rename.Rename(project, resource, offset)
composed with get_changes(new_name): an external collaborator (spec, section
1), modelled as an opaque function from (path, offset, new name) to a change
set or an engine failure. -/
structure RenameEngine where
  getChanges : String → Option Nat → String → Except EngErr ChangeSet

/-- A generic refactoring engine standing for refactoring_type(...) composed
with get_changes(*change_args) in Workspace.get_changes. -/
structure RefactoringEngine where
  run : List String → Except EngErr ChangeSet

/-- Workspace.rename (workspace.py, lines 189-194): builds the Rename
refactoring on the root project and returns its changes.  The body contains
no exception handling (there is no try/except anywhere in workspace.py), so
the outcome of the engine, success or failure, is returned unchanged. -/
def Workspace.rename (engine : RenameEngine) (path : String) (offset : Option Nat)
    (name : String) : Except EngErr ChangeSet :=
  engine.getChanges path offset name

/-- Workspace.get_changes (workspace.py, lines 159-184): builds the requested
refactoring and returns ref.get_changes(*change_args), again with no
exception handling around the engine call. -/
def Workspace.getChanges (engine : RefactoringEngine) (changeArgs : List String) :
    Except EngErr ChangeSet :=
  engine.run changeArgs

/-- State of the project owned by ProjectServer: the change sets applied so
far by self.proj.do, in application order. -/
structure ServerProjectState where
  appliedChanges : List ChangeSet
deriving DecidableEq

/-- ProjectServer.rename (server.py, lines 78-83): computes the rename change
set and immediately applies it with self.proj.do(...).  The method body has
no return statement, so a successful call returns the Python value None,
modelled as the none branch of the returned Option. -/
def ProjectServer.rename (engine : RenameEngine) (st : ServerProjectState)
    (newName : String) (path : String) (offset : Option Nat) :
    Except EngErr (Option ChangeSet × ServerProjectState) :=
  match engine.getChanges path offset newName with
  | .error e => .error e
  | .ok changes => .ok (none, ⟨st.appliedChanges ++ [changes]⟩)

/-! ## Resource trees and get_all_resources (workspace.py lines 15-33 and the
identical server.py lines 11-29) -/

/-- Resource tree of a project as rope sees it: files and folders, each with
a name; a resource path is the list of names from the project root down. -/
inductive FSTree where
  | file (name : String)
  | dir (name : String) (children : List FSTree)

/-- Name of the resource, the last component of its path. -/
def FSTree.name : FSTree → String
  | .file n => n
  | .dir n _ => n

/-- Model of resource.is_folder(). -/
def FSTree.isFolder : FSTree → Bool
  | .file _ => false
  | .dir _ _ => true

/-- Model of resource.get_children(); a file has none. -/
def FSTree.childList : FSTree → List FSTree
  | .file _ => []
  | .dir _ cs => cs

mutual

/-- Number of resources in a tree. -/
def FSTree.size : FSTree → Nat
  | .file _ => 1
  | .dir _ cs => 1 + sizeL cs

/-- Total number of resources in a list of trees. -/
def sizeL : List FSTree → Nat
  | [] => 0
  | t :: ts => FSTree.size t + sizeL ts

end

/-- First child with the given name, as a file system resolves one path
component inside a directory. -/
def findChild (n : String) : List FSTree → Option FSTree
  | [] => none
  | c :: cs => if FSTree.name c = n then some c else findChild n cs

/-- Model of project.get_resource(path): resolve the component list against
the resource tree of the project; none models the rope resource-not-found
error. -/
def resolve : FSTree → List String → Option FSTree
  | t, [] => some t
  | t, n :: rest =>
    match findChild n t.childList with
    | none => none
    | some c => resolve c rest

/-- Loop of get_all_resources (workspace.py lines 25-33): a FIFO work list of
paths seeded by the caller; pop the front, fetch the resource, yield its path
and folder flag, and if it is a folder append the paths of its children to
the work list.  The generator is embedded with explicit fuel, one unit per
yielded resource; the none branch (a queued path that does not resolve) would
raise in rope and cannot be reached from the seed used below. -/
def getAllResourcesAux (proj : FSTree) : Nat → List (List String) → List (List String × Bool)
  | 0, _ => []
  | _ + 1, [] => []
  | fuel + 1, p :: rest =>
    match resolve proj p with
    | none => []
    | some res =>
      (p, res.isFolder) ::
        getAllResourcesAux proj fuel
          (if res.isFolder then rest ++ res.childList.map (fun c => p ++ [c.name]) else rest)

/-- get_all_resources(proj): the loop above started on the work list holding
only the empty path of the project root, as the source seeds todo with the
empty string. -/
def getAllResources (proj : FSTree) (fuel : Nat) : List (List String × Bool) :=
  getAllResourcesAux proj fuel [[]]

/-- Total number of resources referenced by a queue of path-tree pairs; the
termination measure of the reference traversal below. -/
def pairsSize (ps : List (List String × FSTree)) : Nat :=
  (ps.map (fun q => q.2.size)).sum

/-- Every tree holds at least its root resource. -/
theorem size_pos (t : FSTree) : 0 < t.size := by
  cases t <;> simp [FSTree.size]

/-- Unfolding of sizeL as a mapped sum. -/
theorem sizeL_eq (cs : List FSTree) : sizeL cs = (cs.map FSTree.size).sum := by
  induction cs with
  | nil => simp [sizeL]
  | cons c cs ih => simp [sizeL, ih]

/-- Measure of a queue with a popped head. -/
theorem pairsSize_cons (p : List String) (t : FSTree)
    (rest : List (List String × FSTree)) :
    pairsSize ((p, t) :: rest) = t.size + pairsSize rest := by
  simp [pairsSize]

/-- Measure of an appended queue. -/
theorem pairsSize_append (a b : List (List String × FSTree)) :
    pairsSize (a ++ b) = pairsSize a + pairsSize b := by
  simp [pairsSize]

/-- Measure of the queue entries made from the children of a directory. -/
theorem pairsSize_map_children (p : List String) (cs : List FSTree) :
    pairsSize (cs.map (fun c => (p ++ [c.name], c))) = sizeL cs := by
  simp [pairsSize, sizeL_eq, List.map_map, Function.comp_def]

/-- Modelled from the spec: the level-order (breadth-first) traversal the
specification describes for list_resources — a FIFO queue of pending
resources paired with their paths; each resource is yielded when popped and
the children of a folder are appended to the queue, not recursed into. -/
def levelOrder : List (List String × FSTree) → List (List String × Bool)
  | [] => []
  | (p, .file _fn) :: rest => (p, false) :: levelOrder rest
  | (p, .dir _dn cs) :: rest =>
      (p, true) :: levelOrder (rest ++ cs.map (fun c => (p ++ [c.name], c)))
termination_by ps => pairsSize ps
decreasing_by
  · simp [pairsSize_cons, FSTree.size]
  · simp [pairsSize_cons, pairsSize_append, pairsSize_map_children, FSTree.size]
    omega

/-- Well-formed resource tree: sibling names are distinct at every level, as
in a real file system, so every resource is reachable by exactly one path. -/
inductive WF : FSTree → Prop where
  | file (n : String) : WF (.file n)
  | dir (n : String) (cs : List FSTree) :
      (cs.map FSTree.name).Nodup → (∀ c ∈ cs, WF c) → WF (.dir n cs)

mutual

/-- All resource paths of the tree rooted at base path p, in prefix order. -/
def allPaths (p : List String) : FSTree → List (List String)
  | .file _ => [p]
  | .dir _ cs => p :: allPathsL p cs

/-- All resource paths contributed by a list of children of the directory at
base path p. -/
def allPathsL (p : List String) : List FSTree → List (List String)
  | [] => []
  | c :: cs => allPaths (p ++ [c.name]) c ++ allPathsL p cs

end

/-- Concrete tree of the specification example: a root folder holding the
file a.py and the folder sub, which holds the file b.py. -/
def exampleTree : FSTree :=
  .dir "" [.file "a.py", .dir "sub" [.file "b.py"]]

/-- Engine behaviour on an ambiguous rename target: rope raises one of its
own exception types carrying a message. -/
def ambiguousRenameEngine : RenameEngine :=
  ⟨fun _ _ _ => .error (.engineException "RefactoringError" "Ambiguous rename target")⟩

/-- Engine behaviour when the rename succeeds with a two-file change set. -/
def okRenameEngine : RenameEngine :=
  ⟨fun _ _ _ => .ok ⟨["m.py: foo -> bar", "n.py: foo -> bar"]⟩⟩

/-- Generic engine behaviour failing with a rope-internal syntax error. -/
def failingRefEngine : RefactoringEngine :=
  ⟨fun _ => .error (.engineException "ModuleSyntaxError" "invalid syntax")⟩

/-! ## Lemmas on resolution and well-formed trees -/

/-- A found child is a member of the list and carries the searched name. -/
theorem findChild_eq_some (n : String) (cs : List FSTree) (c : FSTree)
    (h : findChild n cs = some c) : c ∈ cs ∧ c.name = n := by
  induction cs with
  | nil => simp [findChild] at h
  | cons d ds ih =>
    by_cases hd : d.name = n
    · simp [findChild, hd] at h
      subst h
      exact ⟨by simp, hd⟩
    · simp [findChild, hd] at h
      obtain ⟨hm, hn⟩ := ih h
      exact ⟨by simp [hm], hn⟩

/-- With distinct sibling names, looking a member child up by its own name
finds exactly that child. -/
theorem findChild_of_nodup_mem (cs : List FSTree) (c : FSTree)
    (hnd : (cs.map FSTree.name).Nodup) (hm : c ∈ cs) :
    findChild c.name cs = some c := by
  induction cs with
  | nil => simp at hm
  | cons d ds ih =>
    simp only [List.map_cons, List.nodup_cons] at hnd
    rcases List.mem_cons.mp hm with h | h
    · subst h
      simp [findChild]
    · have hne : d.name ≠ c.name := by
        intro he
        exact hnd.1 (he ▸ List.mem_map_of_mem FSTree.name h)
      simp [findChild, hne, ih hnd.2 h]

/-- Resolution distributes over path concatenation. -/
theorem resolve_append (p q : List String) :
    ∀ t : FSTree, resolve t (p ++ q) = (resolve t p).bind (fun s => resolve s q) := by
  induction p with
  | nil => intro t; simp [resolve]
  | cons n rest ih =>
    intro t
    simp only [List.cons_append, resolve]
    cases h : findChild n t.childList with
    | none => simp
    | some c => simp [ih c]

/-- Resolving one further component from a resolved directory finds the child
with that name. -/
theorem resolve_snoc (t : FSTree) (p : List String) (n : String) (s : FSTree)
    (h : resolve t p = some s) :
    resolve t (p ++ [n]) = findChild n s.childList := by
  rw [resolve_append, h]
  simp only [Option.bind_some, resolve]
  cases hf : findChild n s.childList <;> simp [hf]

/-- Every resource resolved inside a well-formed tree is well-formed. -/
theorem WF.of_resolve (p : List String) :
    ∀ t s : FSTree, WF t → resolve t p = some s → WF s := by
  induction p with
  | nil =>
    intro t s hwf h
    simp [resolve] at h
    exact h ▸ hwf
  | cons n rest ih =>
    intro t s hwf h
    simp only [resolve] at h
    cases hf : findChild n t.childList with
    | none => simp [hf] at h
    | some c =>
      rw [hf] at h
      refine ih c s ?_ h
      obtain ⟨hm, _⟩ := findChild_eq_some n t.childList c hf
      cases hwf with
      | file _ => simp [FSTree.childList] at hm
      | dir _ cs hnd hcs => exact hcs c hm

/-- Each member of a list of trees contributes at most the total size. -/
theorem size_le_sizeL (c : FSTree) (cs : List FSTree) (h : c ∈ cs) :
    c.size ≤ sizeL cs := by
  induction cs with
  | nil => simp at h
  | cons d ds ih =>
    rcases List.mem_cons.mp h with hd | hd
    · subst hd; simp [sizeL]
    · have := ih hd
      simp only [sizeL]
      omega

/-- Structural induction principle for trees, phrased through the size
measure to sidestep the nested occurrence of List. -/
theorem FSTree.inductionOn {P : FSTree → Prop}
    (hfile : ∀ n, P (.file n))
    (hdir : ∀ n cs, (∀ c ∈ cs, P c) → P (.dir n cs)) :
    ∀ t, P t := by
  have key : ∀ (k : Nat) (t : FSTree), t.size ≤ k → P t := by
    intro k
    induction k with
    | zero =>
      intro t ht
      exact absurd ht (by have := size_pos t; omega)
    | succ k ih =>
      intro t ht
      cases t with
      | file n => exact hfile n
      | dir n cs =>
        refine hdir n cs (fun c hc => ih c ?_)
        have h1 := size_le_sizeL c cs hc
        have h2 : FSTree.size (.dir n cs) = 1 + sizeL cs := by simp [FSTree.size]
        omega
  exact fun t => key t.size t le_rfl

/-- Core refinement: on any work list of paths that all resolve in a
well-formed project, the fueled path-based loop of get_all_resources produces
exactly the level-order traversal of the corresponding resources, provided
the fuel covers the resources reachable from the work list. -/
theorem aux_levelOrder (proj : FSTree) (hproj : WF proj) :
    ∀ (fuel : Nat) (pairs : List (List String × FSTree)),
      (∀ q ∈ pairs, resolve proj q.1 = some q.2) →
      pairsSize pairs ≤ fuel →
      getAllResourcesAux proj fuel (pairs.map Prod.fst) = levelOrder pairs := by
  intro fuel
  induction fuel with
  | zero =>
    intro pairs hres hsize
    rcases pairs with _ | ⟨⟨p, t⟩, rest⟩
    · simp [getAllResourcesAux, levelOrder]
    · exfalso
      have := size_pos t
      rw [pairsSize_cons] at hsize
      omega
  | succ fuel ih =>
    intro pairs hres hsize
    rcases pairs with _ | ⟨⟨p, t⟩, rest⟩
    · simp [getAllResourcesAux, levelOrder]
    · have hpt : resolve proj p = some t := hres (p, t) (by simp)
      have hrest : ∀ q ∈ rest, resolve proj q.1 = some q.2 :=
        fun q hq => hres q (by simp [hq])
      cases t with
      | file fn =>
        have hsz : pairsSize rest ≤ fuel := by
          rw [pairsSize_cons] at hsize
          simp only [FSTree.size] at hsize
          omega
        have ihr := ih rest hrest hsz
        simp [getAllResourcesAux, hpt, FSTree.isFolder, levelOrder, ihr]
      | dir dn cs =>
        have hwt : WF (.dir dn cs) := WF.of_resolve p proj _ hproj hpt
        have hnd : (cs.map FSTree.name).Nodup := by
          cases hwt with
          | dir _ _ hnd _ => exact hnd
        have hchild : ∀ q ∈ rest ++ cs.map (fun c => (p ++ [c.name], c)),
            resolve proj q.1 = some q.2 := by
          intro q hq
          rcases List.mem_append.mp hq with hq | hq
          · exact hrest q hq
          · obtain ⟨c, hc, rfl⟩ := List.mem_map.mp hq
            exact (resolve_snoc proj p c.name _ hpt).trans
              (findChild_of_nodup_mem cs c hnd hc)
        have hsz : pairsSize (rest ++ cs.map (fun c => (p ++ [c.name], c))) ≤ fuel := by
          rw [pairsSize_append, pairsSize_map_children]
          rw [pairsSize_cons] at hsize
          simp only [FSTree.size] at hsize
          omega
        have ihr := ih _ hchild hsz
        rw [List.map_append, List.map_map] at ihr
        simp only [Function.comp_def] at ihr
        simp [getAllResourcesAux, hpt, FSTree.isFolder, FSTree.childList,
          levelOrder, ihr]

/-- Specialisation to the actual seed of get_all_resources: with fuel at
least the size of a well-formed project, the generated sequence is the
level-order traversal from the project root. -/
theorem getAllResources_eq_levelOrder (proj : FSTree) (hproj : WF proj)
    (fuel : Nat) (hfuel : proj.size ≤ fuel) :
    getAllResources proj fuel = levelOrder [([], proj)] := by
  have h := aux_levelOrder proj hproj fuel [([], proj)]
    (by
      intro q hq
      simp only [List.mem_singleton] at hq
      subst hq
      rfl)
    (by
      rw [pairsSize_cons]
      simp only [pairsSize, List.map_nil, List.sum_nil]
      omega)
  simpa [getAllResources] using h

/-- Membership in the path lists of a family of children. -/
theorem mem_allPathsL (q p : List String) (cs : List FSTree) :
    q ∈ allPathsL p cs ↔ ∃ c ∈ cs, q ∈ allPaths (p ++ [c.name]) c := by
  induction cs with
  | nil => simp [allPathsL]
  | cons c ds ih => simp [allPathsL, ih]

/-- Every enumerated path extends the base path of its subtree. -/
theorem allPaths_prefix :
    ∀ t : FSTree, ∀ p q : List String, q ∈ allPaths p t → p <+: q := by
  refine FSTree.inductionOn ?_ ?_
  · intro n p q hq
    simp [allPaths] at hq
    exact hq ▸ List.prefix_refl p
  · intro n cs ih p q hq
    simp only [allPaths, List.mem_cons] at hq
    rcases hq with hq | hq
    · exact hq ▸ List.prefix_refl p
    · obtain ⟨c, hc, hq⟩ := (mem_allPathsL q p cs).mp hq
      exact (List.prefix_append p [c.name]).trans (ih c hc (p ++ [c.name]) q hq)

/-- The base path itself is not contributed by the children. -/
theorem base_not_mem_allPathsL (p : List String) (cs : List FSTree) :
    p ∉ allPathsL p cs := by
  intro hmem
  obtain ⟨c, _, hq⟩ := (mem_allPathsL p p cs).mp hmem
  have hpre := allPaths_prefix c (p ++ [c.name]) p hq
  have := hpre.length_le
  simp at this

/-- Paths contributed by two children with different names never collide:
both extend the base path by the child name first. -/
theorem allPaths_disjoint_of_name_ne (p : List String) (c d : FSTree)
    (hne : c.name ≠ d.name) (q : List String)
    (hc : q ∈ allPaths (p ++ [c.name]) c) (hd : q ∈ allPaths (p ++ [d.name]) d) :
    False := by
  have h1 := allPaths_prefix c (p ++ [c.name]) q hc
  have h2 := allPaths_prefix d (p ++ [d.name]) q hd
  have h3 := List.prefix_of_prefix_length_le h1 h2 (by simp)
  have h4 := h3.eq_of_length (by simp)
  have h5 := List.append_cancel_left h4
  simp at h5
  exact hne h5

/-- With distinct sibling names and duplicate-free child enumerations, the
concatenated enumeration of a family of children is duplicate-free. -/
theorem allPathsL_nodup (p : List String) (cs : List FSTree)
    (hnd : (cs.map FSTree.name).Nodup)
    (hih : ∀ c ∈ cs, ∀ q : List String, (allPaths q c).Nodup) :
    (allPathsL p cs).Nodup := by
  induction cs with
  | nil => simp [allPathsL]
  | cons c ds ih =>
    simp only [List.map_cons, List.nodup_cons] at hnd
    simp only [allPathsL]
    refine (hih c (by simp) (p ++ [c.name])).append
      (ih hnd.2 (fun d hd q => hih d (by simp [hd]) q)) ?_
    intro q hqc hqds
    obtain ⟨d, hd, hqd⟩ := (mem_allPathsL q p ds).mp hqds
    have hne : c.name ≠ d.name := by
      intro he
      exact hnd.1 (he ▸ List.mem_map_of_mem FSTree.name hd)
    exact allPaths_disjoint_of_name_ne p c d hne q hqc hqd

/-- In a well-formed tree every resource path is enumerated once: the
enumeration has no duplicates. -/
theorem allPaths_nodup (t : FSTree) (hwf : WF t) :
    ∀ p : List String, (allPaths p t).Nodup := by
  induction hwf with
  | file n =>
    intro p
    simp [allPaths]
  | dir n cs hnd hcs ih =>
    intro p
    simp only [allPaths, List.nodup_cons]
    exact ⟨base_not_mem_allPathsL p cs, allPathsL_nodup p cs hnd ih⟩

/-- Concatenated enumeration of all resources referenced by a queue. -/
def allPathsPairs : List (List String × FSTree) → List (List String)
  | [] => []
  | (p, t) :: rest => allPaths p t ++ allPathsPairs rest

/-- Enumeration of an appended queue. -/
theorem allPathsPairs_append (a b : List (List String × FSTree)) :
    allPathsPairs (a ++ b) = allPathsPairs a ++ allPathsPairs b := by
  induction a with
  | nil => simp [allPathsPairs]
  | cons q rest ih =>
    obtain ⟨p, t⟩ := q
    simp [allPathsPairs, ih]

/-- Enumeration of the queue entries made from the children of a directory. -/
theorem allPathsPairs_children (p : List String) (cs : List FSTree) :
    allPathsPairs (cs.map (fun c => (p ++ [c.name], c))) = allPathsL p cs := by
  induction cs with
  | nil => simp [allPathsPairs, allPathsL]
  | cons c ds ih => simp [allPathsPairs, allPathsL, ih]

/-- The paths yielded by the level-order traversal are a permutation of the
full enumeration of the queued resources. -/
theorem levelOrder_perm :
    ∀ (n : Nat) (pairs : List (List String × FSTree)), pairsSize pairs ≤ n →
      ((levelOrder pairs).map Prod.fst).Perm (allPathsPairs pairs) := by
  intro n
  induction n with
  | zero =>
    intro pairs h
    rcases pairs with _ | ⟨⟨p, t⟩, rest⟩
    · simp [levelOrder, allPathsPairs]
    · exfalso
      have := size_pos t
      rw [pairsSize_cons] at h
      omega
  | succ n ih =>
    intro pairs h
    rcases pairs with _ | ⟨⟨p, t⟩, rest⟩
    · simp [levelOrder, allPathsPairs]
    · cases t with
      | file fn =>
        have hsz : pairsSize rest ≤ n := by
          rw [pairsSize_cons] at h
          simp only [FSTree.size] at h
          omega
        have ihr := ih rest hsz
        simp only [levelOrder, List.map_cons, allPathsPairs, allPaths]
        simpa using ihr.cons p
      | dir dn cs =>
        have hsz : pairsSize (rest ++ cs.map (fun c => (p ++ [c.name], c))) ≤ n := by
          rw [pairsSize_append, pairsSize_map_children]
          rw [pairsSize_cons] at h
          simp only [FSTree.size] at h
          omega
        have ihr := ih _ hsz
        rw [allPathsPairs_append, allPathsPairs_children] at ihr
        simp only [levelOrder, List.map_cons, allPathsPairs, allPaths]
        refine (ihr.cons p).trans ?_
        simp only [List.cons_append]
        exact List.perm_append_comm.cons p

/-- The paths yielded by get_all_resources on a well-formed project, with
enough fuel, are a permutation of the enumeration of all its resources. -/
theorem getAllResources_perm (proj : FSTree) (hproj : WF proj)
    (fuel : Nat) (hfuel : proj.size ≤ fuel) :
    ((getAllResources proj fuel).map Prod.fst).Perm (allPaths [] proj) := by
  rw [getAllResources_eq_levelOrder proj hproj fuel hfuel]
  have h := levelOrder_perm (pairsSize [([], proj)]) [([], proj)] le_rfl
  simpa [allPathsPairs] using h

/-! ## Registry lemmas -/

deriving instance DecidableEq for Except

/-- Any key set by dict assignment is among the keys afterwards. -/
theorem mem_dictKeys_dictSet (k : String) (v : Project) (m : List (String × Project)) :
    k ∈ dictKeys (dictSet k v m) := by
  induction m with
  | nil => simp [dictSet, dictKeys]
  | cons e rest ih =>
    obtain ⟨ka, va⟩ := e
    by_cases h : ka = k
    · simp [dictSet, h, dictKeys]
    · simp only [dictSet, if_neg h, dictKeys, List.map_cons, List.mem_cons]
      exact Or.inr ih

/-- Dict assignment introduces no key other than the assigned one. -/
theorem mem_dictKeys_dictSet_elim (k k' : String) (v : Project)
    (m : List (String × Project)) (h : k' ∈ dictKeys (dictSet k v m)) :
    k' = k ∨ k' ∈ dictKeys m := by
  induction m with
  | nil =>
    simp [dictSet, dictKeys] at h
    exact Or.inl h
  | cons e rest ih =>
    obtain ⟨ka, va⟩ := e
    by_cases hk : ka = k
    · simp only [dictSet, if_pos hk, dictKeys, List.map_cons, List.mem_cons] at h
      rcases h with h | h
      · exact Or.inl h
      · exact Or.inr (by simp [dictKeys, h])
    · simp only [dictSet, if_neg hk, dictKeys, List.map_cons, List.mem_cons] at h
      rcases h with h | h
      · exact Or.inr (by simp [dictKeys, h])
      · rcases ih h with h2 | h2
        · exact Or.inl h2
        · exact Or.inr (by simp only [dictKeys, List.map_cons, List.mem_cons]; exact Or.inr h2)

/-- Folding add_cross_project over directories different from the root never
introduces the root directory as a cross-project key. -/
theorem root_not_mem_addAll (rootDir : String) :
    ∀ (l : List String) (ws : Workspace),
      (∀ d ∈ l, d ≠ rootDir) → rootDir ∉ dictKeys ws.crossProjects →
      rootDir ∉ dictKeys
        ((l.foldl (fun ws d => ws.addCrossProject d) ws).crossProjects) := by
  intro l
  induction l with
  | nil =>
    intro ws _ h
    simpa using h
  | cons d ds ih =>
    intro ws hne h
    simp only [List.foldl_cons]
    refine ih (ws.addCrossProject d) (fun e he => hne e (by simp [he])) ?_
    intro hmem
    simp only [Workspace.addCrossProject] at hmem
    rcases mem_dictKeys_dictSet_elim d rootDir (mkProject d) ws.crossProjects hmem with he | he
    · exact hne d (by simp) he.symm
    · exact h he

/-- Well-formedness of the example tree: sibling names are distinct. -/
theorem exampleTree_wf : WF exampleTree := by
  refine WF.dir "" _ (by decide) ?_
  intro c hc
  simp only [exampleTree, List.mem_cons, List.not_mem_nil, or_false] at hc
  rcases hc with h | h
  · exact h ▸ WF.file "a.py"
  · refine h ▸ WF.dir "sub" _ (by decide) ?_
    intro d hd
    simp only [List.mem_cons, List.not_mem_nil, or_false] at hd
    exact hd ▸ WF.file "b.py"

/-! ## Claim C1 -/

/-- Claim C1, counterexample: the workspace constructed on root directory r
has root project directory r, yet calling add_cross_project with r does
register r as a cross project — the discard of the root path happens only in
the constructor, so the stated invariant is not preserved by
add_cross_project. -/
theorem c1_counterexample :
    (Workspace.init "r" []).rootProject.dir = "r" ∧
    "r" ∈ dictKeys ((Workspace.init "r" []).addCrossProject "r").crossProjects := by
  decide

/-- Claim C1, amended: after construction with any cross_project_dirs list
the root directory is never registered as a cross project (the constructor
discards it before registering), but add_cross_project performs no such
check: it registers whatever directory it is given, including the root
project directory. -/
theorem c1_init_discards_root :
    (∀ (rootDir : String) (cds : List String),
        rootDir ∉ dictKeys (Workspace.init rootDir cds).crossProjects) ∧
    (∀ (ws : Workspace) (d : String),
        d ∈ dictKeys (ws.addCrossProject d).crossProjects) := by
  constructor
  · intro rootDir cds
    refine root_not_mem_addAll rootDir _ _ ?_ (by simp [dictKeys])
    intro d hd
    have := List.of_mem_filter hd
    simpa using this
  · intro ws d
    simpa only [Workspace.addCrossProject] using
      mem_dictKeys_dictSet d (mkProject d) ws.crossProjects

/-! ## Claim C2 -/

/-- Claim C2, counterexample: with an engine that fails with a rope-internal
exception type, Workspace.rename surfaces exactly that engine exception, not
a RefactoringFailed condition carrying the message. -/
theorem c2_counterexample :
    Workspace.rename ambiguousRenameEngine "m.py" (some 10) "foo" =
      .error (.engineException "RefactoringError" "Ambiguous rename target") ∧
    (Except.error (EngErr.engineException "RefactoringError" "Ambiguous rename target") :
        Except EngErr ChangeSet) ≠
      Except.error (EngErr.refactoringFailed "Ambiguous rename target") := by
  exact ⟨rfl, by simp⟩

/-- Claim C2, amended: the Workspace refactoring operations contain no
exception handling, so an engine failure propagates to the caller exactly as
the engine raised it — the engine-internal exception is the reported
failure, and no RefactoringFailed wrapping exists in the code. -/
theorem c2_engine_errors_propagate :
    ∀ (engine : RenameEngine) (gengine : RefactoringEngine) (path : String)
      (offset : Option Nat) (name : String) (args : List String) (e : EngErr),
      (engine.getChanges path offset name = .error e →
        Workspace.rename engine path offset name = .error e) ∧
      (gengine.run args = .error e →
        Workspace.getChanges gengine args = .error e) := by
  intro engine gengine path offset name args e
  exact ⟨fun h => h, fun h => h⟩

/-- Claim C2, witness for the amended theorem at a concrete failing engine. -/
theorem c2_engine_errors_propagate_witness :
    ambiguousRenameEngine.getChanges "m.py" (some 10) "foo" =
      .error (.engineException "RefactoringError" "Ambiguous rename target") ∧
    Workspace.rename ambiguousRenameEngine "m.py" (some 10) "foo" =
      .error (.engineException "RefactoringError" "Ambiguous rename target") :=
  ⟨rfl,
    (c2_engine_errors_propagate ambiguousRenameEngine failingRefEngine "m.py"
      (some 10) "foo" []
      (.engineException "RefactoringError" "Ambiguous rename target")).1 rfl⟩

/-! ## Claim C3 -/

/-- Claim C3, counterexample: removing an unregistered directory fails with
the KeyError that del raises on a missing dict key, which is not the
structured NotFound condition the claim asserts. -/
theorem c3_counterexample :
    (Workspace.init "r" []).removeCrossProject "d" = .error (.keyError "d") ∧
    (Except.error (WsError.keyError "d") : Except WsError Workspace) ≠
      Except.error (WsError.notFound "d") := by
  exact ⟨by decide, by simp⟩

/-- Claim C3, amended: for every directory not currently registered as a
cross project, remove_cross_project fails by raising KeyError (the missing
dict key error of del, not a structured NotFound condition), and since the
call fails no updated workspace is produced: the registered cross projects
are unchanged. -/
theorem c3_remove_missing_keyError :
    ∀ (ws : Workspace) (d : String), d ∉ dictKeys ws.crossProjects →
      ws.removeCrossProject d = .error (.keyError d) := by
  intro ws d h
  simp [Workspace.removeCrossProject, h]

/-- Claim C3, witness for the amended theorem on a concrete workspace. -/
theorem c3_remove_missing_keyError_witness :
    "d" ∉ dictKeys (Workspace.init "r" []).crossProjects ∧
    (Workspace.init "r" []).removeCrossProject "d" = .error (.keyError "d") :=
  ⟨by decide, c3_remove_missing_keyError (Workspace.init "r" []) "d" (by decide)⟩

/-! ## Claim C4 -/

/-- Claim C4, counterexample: on a workspace built with one cross project,
close() closes the root project but leaves the cross project with close
count zero, so not every created Project handle has been closed. -/
theorem c4_counterexample :
    (Workspace.init "r" ["c"]).close.rootProject.closeCount = 1 ∧
    ¬ (∀ q ∈ (Workspace.init "r" ["c"]).close.crossProjects, q.2.closeCount = 1) := by
  decide

/-- Claim C4, amended: close() closes exactly the root project, exactly once
per call; the registered cross projects are left untouched, so their handles
are never closed by Workspace.close. -/
theorem c4_close_only_root :
    ∀ ws : Workspace,
      ws.close.rootProject.closeCount = ws.rootProject.closeCount + 1 ∧
      ws.close.rootProject.dir = ws.rootProject.dir ∧
      ws.close.crossProjects = ws.crossProjects := by
  intro ws
  exact ⟨rfl, rfl, rfl⟩

/-! ## Claim C5 -/

/-- Claim C5, counterexample: on a successful rename the server applies the
change set immediately but returns the Python value None, not the change set
as wire data. -/
theorem c5_counterexample :
    ProjectServer.rename okRenameEngine ⟨[]⟩ "bar" "m.py" (some 10) =
      .ok (none, ⟨[⟨["m.py: foo -> bar", "n.py: foo -> bar"]⟩]⟩) ∧
    (none : Option ChangeSet) ≠ some ⟨["m.py: foo -> bar", "n.py: foo -> bar"]⟩ := by
  exact ⟨rfl, by simp⟩

/-- Claim C5, amended: for every call to the remote rename operation whose
engine computation succeeds, the computed change set is applied immediately
(appended to the record of change sets performed by proj.do), and the
operation returns None — no change-set wire data is returned. -/
theorem c5_rename_applies_returns_none :
    ∀ (engine : RenameEngine) (st : ServerProjectState) (newName path : String)
      (offset : Option Nat) (cs : ChangeSet),
      engine.getChanges path offset newName = .ok cs →
      ProjectServer.rename engine st newName path offset =
        .ok (none, ⟨st.appliedChanges ++ [cs]⟩) := by
  intro engine st newName path offset cs h
  simp [ProjectServer.rename, h]

/-- Claim C5, witness for the amended theorem at a concrete engine. -/
theorem c5_rename_applies_returns_none_witness :
    okRenameEngine.getChanges "m.py" (some 10) "bar" =
      .ok ⟨["m.py: foo -> bar", "n.py: foo -> bar"]⟩ ∧
    ProjectServer.rename okRenameEngine ⟨[]⟩ "bar" "m.py" (some 10) =
      .ok (none, ⟨[⟨["m.py: foo -> bar", "n.py: foo -> bar"]⟩]⟩) :=
  ⟨rfl,
    c5_rename_applies_returns_none okRenameEngine ⟨[]⟩ "bar" "m.py" (some 10)
      ⟨["m.py: foo -> bar", "n.py: foo -> bar"]⟩ rfl⟩

/-! ## Claim C6 -/

/-- Claim C6: get_all_resources yields resources in level order — its output
on any well-formed project tree equals the FIFO level-order reference
traversal seeded with the root path, yielding each folder before descending
into it and appending children to the queue; on the example tree holding
a.py and sub (which holds b.py) it yields the root, then a.py and sub, and
b.py only after both. -/
theorem c6_getAllResources_levelOrder :
    (∀ (proj : FSTree) (fuel : Nat), WF proj → proj.size ≤ fuel →
        getAllResources proj fuel = levelOrder [([], proj)]) ∧
    getAllResources exampleTree 4 =
      [([], true), (["a.py"], false), (["sub"], true), (["sub", "b.py"], false)] := by
  constructor
  · intro proj fuel hwf hfuel
    exact getAllResources_eq_levelOrder proj hwf fuel hfuel
  · rfl

/-- Claim C6, witness at the example tree. -/
theorem c6_getAllResources_levelOrder_witness :
    WF exampleTree ∧ FSTree.size exampleTree ≤ 4 ∧
    getAllResources exampleTree 4 = levelOrder [([], exampleTree)] :=
  ⟨exampleTree_wf, by decide,
    c6_getAllResources_levelOrder.1 exampleTree 4 exampleTree_wf (by decide)⟩

/-! ## Claim C7 -/

/-- Claim C7, counterexample: on a file system where the top-level entry
link resolves to real, the server turns the absolute path link/f into
../link/f — it uses the given path verbatim — while realpath-based
resolution against the same root yields f; so the absolute-path handling in
the server get_children does not use the symlink-resolved identity of the
given path. -/
theorem c7_counterexample :
    serverGetChildrenPath ⟨true, ["real"]⟩ ⟨true, ["link", "f"]⟩ =
      ⟨false, ["..", "link", "f"]⟩ ∧
    toRelativePath linkRealpath ⟨true, ["real"]⟩ ⟨true, ["link", "f"]⟩ =
      ⟨false, ["f"]⟩ ∧
    (⟨false, ["..", "link", "f"]⟩ : PyPath) ≠ ⟨false, ["f"]⟩ := by
  refine ⟨by decide, by decide, by decide⟩

/-- Claim C7, amended: Workspace.to_relative_path resolves an absolute path
with the real, symlink-resolved identity of both the given path and the
project root — two absolute paths with the same realpath resolve to the same
relative path — whereas the absolute-path handling in the server
get_children resolves only the project root: it applies relpath to the given
path as-is, without realpath. -/
theorem c7_resolution_identity :
    (∀ (realpath : PyPath → PyPath) (rootReal p q : PyPath),
        p.abs = true → q.abs = true → realpath p = realpath q →
        toRelativePath realpath rootReal p = toRelativePath realpath rootReal q) ∧
    (∀ (rootReal p : PyPath), p.abs = true →
        serverGetChildrenPath rootReal p = relpath p rootReal) := by
  constructor
  · intro realpath rootReal p q hp hq hpq
    simp [toRelativePath, hp, hq, hpq]
  · intro rootReal p hp
    simp [serverGetChildrenPath, hp]

/-- Claim C7, witness for the amended theorem: the symlinked and the real
spelling of the same file resolve identically through to_relative_path. -/
theorem c7_resolution_identity_witness :
    PyPath.abs ⟨true, ["link", "f"]⟩ = true ∧
    PyPath.abs ⟨true, ["real", "f"]⟩ = true ∧
    linkRealpath ⟨true, ["link", "f"]⟩ = linkRealpath ⟨true, ["real", "f"]⟩ ∧
    toRelativePath linkRealpath ⟨true, ["real"]⟩ ⟨true, ["link", "f"]⟩ =
      toRelativePath linkRealpath ⟨true, ["real"]⟩ ⟨true, ["real", "f"]⟩ :=
  ⟨rfl, rfl, by decide,
    c7_resolution_identity.1 linkRealpath ⟨true, ["real"]⟩ ⟨true, ["link", "f"]⟩
      ⟨true, ["real", "f"]⟩ rfl rfl (by decide)⟩

/-! ## Claim C8 -/

/-- Claim C8: path resolution is idempotent — applying to_relative_path
twice equals applying it once, for every realpath function, every project
root and every path; in particular a path that is already relative (its
absolute flag is false) is returned unchanged. -/
theorem c8_toRelativePath_idempotent :
    (∀ (realpath : PyPath → PyPath) (rootReal p : PyPath),
        toRelativePath realpath rootReal (toRelativePath realpath rootReal p) =
          toRelativePath realpath rootReal p) ∧
    (∀ (realpath : PyPath → PyPath) (rootReal : PyPath) (comps : List String),
        toRelativePath realpath rootReal ⟨false, comps⟩ = ⟨false, comps⟩) := by
  constructor
  · intro realpath rootReal p
    cases hp : p.abs
    · simp [toRelativePath, hp]
    · simp [toRelativePath, hp, relpath]
  · intro realpath rootReal comps
    simp [toRelativePath]

/-! ## Claim C9 -/

/-- Workspace.get_resource (workspace.py, lines 155-157): resolve the path
relative to the root project (to_relative_path with its default project) and
fetch it from the root project.  The file system is modelled by fs, mapping
a project directory to its resource tree, realpath models os.path.realpath
and rootReal models root_project.root.real_path. -/
def Workspace.getResource (fs : String → FSTree) (realpath : PyPath → PyPath)
    (rootReal : PyPath) (ws : Workspace) (path : PyPath) : Option FSTree :=
  resolve (fs ws.rootProject.dir) (toRelativePath realpath rootReal path).comps

/-- Claim C9: get_resource resolves and fetches against the root project
only — its result is invariant under replacing the registered cross projects
by any other list (in particular the empty one), and it equals resolution of
the relativised path in the root project tree, so a path inside a cross
project root is never looked up in that cross project. -/
theorem c9_getResource_root_only :
    ∀ (fs : String → FSTree) (realpath : PyPath → PyPath) (rootReal : PyPath)
      (ws : Workspace) (cps : List (String × Project)) (path : PyPath),
      Workspace.getResource fs realpath rootReal { ws with crossProjects := cps } path =
        Workspace.getResource fs realpath rootReal ws path ∧
      Workspace.getResource fs realpath rootReal ws path =
        resolve (fs ws.rootProject.dir) (toRelativePath realpath rootReal path).comps := by
  intro fs realpath rootReal ws cps path
  exact ⟨rfl, rfl⟩

/-! ## Claim C10 -/

/-- Claim C10: on every finite well-formed project tree (each resource
reachable from the root by exactly one path), the get_all_resources
traversal terminates — fuel equal to the number of resources suffices, and
any larger fuel yields the same output — and yields each resource of the
tree exactly once: the yielded paths are a duplicate-free permutation of the
enumeration of all resource paths of the tree. -/
theorem c10_traversal_exactly_once :
    ∀ (proj : FSTree) (fuel : Nat), WF proj → proj.size ≤ fuel →
      ((getAllResources proj fuel).map Prod.fst).Perm (allPaths [] proj) ∧
      ((getAllResources proj fuel).map Prod.fst).Nodup ∧
      getAllResources proj fuel = getAllResources proj proj.size := by
  intro proj fuel hwf hfuel
  have hperm := getAllResources_perm proj hwf fuel hfuel
  refine ⟨hperm, hperm.nodup_iff.mpr (allPaths_nodup proj hwf []), ?_⟩
  rw [getAllResources_eq_levelOrder proj hwf fuel hfuel,
    getAllResources_eq_levelOrder proj hwf proj.size le_rfl]

/-- Claim C10, witness at the example tree with surplus fuel. -/
theorem c10_traversal_exactly_once_witness :
    WF exampleTree ∧ FSTree.size exampleTree ≤ 7 ∧
    ((getAllResources exampleTree 7).map Prod.fst).Nodup ∧
    getAllResources exampleTree 7 = getAllResources exampleTree (FSTree.size exampleTree) :=
  ⟨exampleTree_wf, by decide,
    (c10_traversal_exactly_once exampleTree 7 exampleTree_wf (by decide)).2.1,
    (c10_traversal_exactly_once exampleTree 7 exampleTree_wf (by decide)).2.2⟩

end Traad
